import Mathlib

/-!
Verification development for the requirement-extraction and audit-orchestration
pipeline of the readily frontend.

The embedding follows `src/streamlit_app.py` and `src/datamodels.py`:

* `extract_questions` embeds the Python function of the same name: it scans the
  text with the regular expression `\d+\.\s*(.+?\?)` under `re.DOTALL` using
  `re.findall` semantics (leftmost non-overlapping matches, greedy `\d+` and
  `\s*`, lazy `.+?`), then normalizes each captured group with
  `" ".join(q.split())` and numbers the records from 1.
* `format_questions` embeds the formatter joining `f"{q.id}. {q.requirement}"`
  with a blank line.
* `call_api_one` embeds the audit client.  The network is an oracle sending a
  request body to a wire outcome (a transport failure, or a final HTTP status
  with a raw body); JSON decoding of a body is a second oracle.  The model
  records the value returned to the caller, which `except` branch (if any)
  handled a failure, and the list of request bodies posted.
* `run_loop` embeds the per-question loop of `main` (lines 147-169): assign the
  slider value to `top_k`, call the API once, and append either the truthy
  response or the `{"error": f"Failed at question {i}"}` placeholder.

Machine integers: Python integers are unbounded, so `id` and `top_k` are `Int`.
The character class `\d` is modelled as the ASCII digits (the inputs of
interest contain no other decimal digits), and `\s` together with `str.split()`
is modelled by `isPySpace`, the whitespace set CPython uses for both.
-/

/-- Whitespace test shared by the `\s` character class of the pattern and by
`str.split()`; both use the same set of characters in CPython. -/
def isPySpace (c : Char) : Bool :=
  c = ' ' || c = '\t' || c = '\n' || c = '\r' || c = '\x0b' || c = '\x0c' ||
  c = '\x1c' || c = '\x1d' || c = '\x1e' || c = '\x1f' || c = '\x85' || c = '\xa0' ||
  c = ' ' || (0x2000 ≤ c.toNat && c.toNat ≤ 0x200a) || c = ' ' ||
  c = ' ' || c = ' ' || c = ' ' || c = '　'

/-- Lazy tail of the group `(.+?\?)`: consume characters up to and including
the first question mark (the `.` matches newlines because of `re.DOTALL`).
Returns the consumed prefix and the remaining suffix, or `none` when no
question mark remains. -/
def grabToQ : List Char → Option (List Char × List Char)
  | [] => none
  | c :: rest =>
    if c = '?' then some ([c], rest)
    else
      match grabToQ rest with
      | some (g, r) => some (c :: g, r)
      | none => none

/-- Match `(.+?\?)` against `rest3`, the text after the maximal whitespace run
`ws`: the lazy group takes one character and everything up to the next question
mark; when that fails, `\s*` backtracks by one character, which succeeds only
when the first non-whitespace character is itself the question mark (a shorter
whitespace run merely exposes further whitespace to `.`).  Returns the captured
group and the suffix after the match. -/
def matchGroup (ws rest3 : List Char) : Option (List Char × List Char) :=
  match rest3 with
  | [] => none
  | c0 :: tail =>
    match grabToQ tail with
    | some (g, r) => some (c0 :: g, r)
    | none =>
      if c0 = '?' then
        match ws.getLast? with
        | some w => some ([w, '?'], tail)
        | none => none
      else none

/-- Attempt the whole pattern at the head of the list: the greedy `\d+` takes
the maximal digit run, which the literal dot must follow; the greedy `\s*`
takes the maximal whitespace run and hands the remainder to `matchGroup`. -/
def matchAt (l : List Char) : Option (List Char × List Char) :=
  match l.takeWhile Char.isDigit, l.dropWhile Char.isDigit with
  | _ :: _, '.' :: rest2 => matchGroup (rest2.takeWhile isPySpace) (rest2.dropWhile isPySpace)
  | _, _ => none

/-- Fuelled scan of `re.findall`: try the pattern at every position, emit the
captured group of each leftmost match and resume after it.  Every match
consumes at least one character, so `l.length` fuel is always enough. -/
def findallAux : Nat → List Char → List (List Char)
  | 0, _ => []
  | _ + 1, [] => []
  | fuel + 1, c :: rest =>
    match matchAt (c :: rest) with
    | some (g, r) => g :: findallAux fuel r
    | none => findallAux fuel rest

/-- All captured groups of `re.findall(r"\d+\.\s*(.+?\?)", text, re.DOTALL)`. -/
def findall (l : List Char) : List (List Char) :=
  findallAux l.length l

/-- One step of `str.split()` processed from the right: the state is the token
list of the suffix together with a flag telling whether the suffix starts
inside a token. -/
def pySplitStep (c : Char) (s : List (List Char) × Bool) : List (List Char) × Bool :=
  if isPySpace c then (s.1, false)
  else
    match s with
    | (ts, false) => ([c] :: ts, true)
    | ([], true) => ([[c]], true)
    | (t :: ts, true) => ((c :: t) :: ts, true)

/-- Token list of `str.split()`: maximal runs of non-whitespace characters. -/
def pySplit (l : List Char) : List (List Char) :=
  (l.foldr pySplitStep ([], false)).1

/-- Whitespace normalization `" ".join(q.split())`. -/
def cleanChars (l : List Char) : List Char :=
  List.intercalate [' '] (pySplit l)

/-- Embedding of `ResponseItem` from `src/datamodels.py`; Python integers are
unbounded, hence `Int`, and every `Optional` field is an `Option`. -/
structure ResponseItem where
  id : Int
  requirement : String
  is_met : Option Bool
  file_name : Option String
  citation : Option String
  explanation : Option String
  top_k : Option Int
deriving DecidableEq

/-- Embedding of `extract_questions`: each captured group becomes a record;
`enumerate(matches, start=1)` assigns ids 1, 2, ... in match order, and the
remaining fields keep their pydantic defaults (`top_k = 3`). -/
def extract_questions (text : String) : List ResponseItem :=
  (findall text.toList).enum.map
    (fun p => ⟨(p.1 : Int) + 1, (cleanChars p.2).asString, none, none, none, none, some 3⟩)

/-- Embedding of `format_questions`: join `f"{q.id}. {q.requirement}"` with a
blank line between consecutive records. -/
def format_questions (questions : List ResponseItem) : String :=
  String.intercalate "\n\n" (questions.map (fun q => toString q.id ++ ". " ++ q.requirement))

/-- C5: extraction of the text "1. Is X done? 2. Is Y complete?" yields exactly
two records, with ids 1 and 2 and requirements "Is X done?" and
"Is Y complete?" (all other fields at their defaults). -/
theorem extract_two_questions :
    extract_questions "1. Is X done? 2. Is Y complete?" =
      [⟨1, "Is X done?", none, none, none, none, some 3⟩,
       ⟨2, "Is Y complete?", none, none, none, none, some 3⟩] := by
  decide

/-- JSON values, the shape of request and response bodies. -/
inductive JVal where
  | null : JVal
  | jbool : Bool → JVal
  | jnum : Int → JVal
  | jstr : String → JVal
  | jarr : List JVal → JVal
  | jobj : List (String × JVal) → JVal

/-- Python truthiness of a JSON value, as used by `if response:` in `main`:
`None`, `False`, `0`, `""`, `[]` and `{}` are falsy. -/
def pyTruthy : JVal → Bool
  | JVal.null => false
  | JVal.jbool b => b
  | JVal.jnum n => n != 0
  | JVal.jstr s => s != ""
  | JVal.jarr xs => !xs.isEmpty
  | JVal.jobj fs => !fs.isEmpty

/-- Outcome of one HTTP POST: either a transport failure (connection refused,
timeout, DNS failure — `requests` raises a `RequestException` before any
response exists), or a final response with its status code and raw body. -/
inductive Wire where
  | transportError : String → Wire
  | response : Nat → String → Wire

/-- Which `except` branch of `call_api_one` handled a failure:
`requests.exceptions.RequestException` (also covering the `HTTPError` raised
by `raise_for_status`) or `json.JSONDecodeError`. -/
inductive Handler where
  | requestException : Handler
  | jsonDecodeError : Handler
deriving DecidableEq

/-- Everything one call of `call_api_one` produces: the value returned to the
caller, the `except` branch taken (if any), and the request bodies posted. -/
structure CallOutcome where
  retval : Option JVal
  caught : Option Handler
  sent : List JVal

/-- Serialization of an `Option Int` field into JSON (`None` becomes null). -/
def jsonOfOptInt : Option Int → JVal
  | none => JVal.null
  | some n => JVal.jnum n

/-- Request body of `call_api_one`: `{"id": ..., "requirement": ..., "top_k": ...}`
built from the current field values of the record. -/
def payload_one (req : ResponseItem) : JVal :=
  JVal.jobj [("id", JVal.jnum req.id), ("requirement", JVal.jstr req.requirement),
             ("top_k", jsonOfOptInt req.top_k)]

/-- The criterion of `Response.raise_for_status`: an `HTTPError` is raised
exactly for status codes 400-599. -/
def raisesForStatus (s : Nat) : Bool :=
  400 ≤ s && s < 600

/-- Embedding of `call_api_one`: serialize the record, POST it once, raise for
a bad status, decode the body.  `decode` is the JSON parser oracle and `net`
maps a posted body to its wire outcome. -/
def call_api_one (decode : String → Option JVal) (net : JVal → Wire)
    (req : ResponseItem) : CallOutcome :=
  let body := payload_one req
  match net body with
  | Wire.transportError _ => ⟨none, some Handler.requestException, [body]⟩
  | Wire.response status text =>
    if raisesForStatus status then ⟨none, some Handler.requestException, [body]⟩
    else
      match decode text with
      | some j => ⟨some j, none, [body]⟩
      | none => ⟨none, some Handler.jsonDecodeError, [body]⟩

/-- The mutation `question.top_k = top_k` performed before each submission. -/
def setTopK (q : ResponseItem) (tk : Int) : ResponseItem :=
  ⟨q.id, q.requirement, q.is_met, q.file_name, q.citation, q.explanation, some tk⟩

/-- Failure placeholder appended by `main`: `{"error": f"Failed at question {i}"}`. -/
def errEntry (i : Nat) : JVal :=
  JVal.jobj [("error", JVal.jstr ("Failed at question " ++ toString i))]

/-- Outcome appended for the question at 1-based position `i`: the response
when it is truthy, the failure placeholder otherwise (`if response:`). -/
def itemOutcome (decode : String → Option JVal) (net1 : JVal → Wire) (tk : Int)
    (i : Nat) (q : ResponseItem) : JVal :=
  match (call_api_one decode net1 (setTopK q tk)).retval with
  | some r => if pyTruthy r then r else errEntry i
  | none => errEntry i

/-- The loop of `main` from 1-based position `i` on: set `top_k`, call the API
once, append the outcome, continue with the next question.  The oracle `net`
is indexed by the position so that distinct calls may fail independently. -/
def runAux (decode : String → Option JVal) (net : Nat → JVal → Wire) (tk : Int) :
    Nat → List ResponseItem → List JVal
  | _, [] => []
  | i, q :: rest => itemOutcome decode (net i) tk i q :: runAux decode net tk (i + 1) rest

/-- Embedding of the orchestration loop of `main` (lines 147-169): the value of
`all_responses` after processing every extracted question. -/
def run_loop (decode : String → Option JVal) (net : Nat → JVal → Wire) (tk : Int)
    (qs : List ResponseItem) : List JVal :=
  runAux decode net tk 1 qs

lemma runAux_length (decode : String → Option JVal) (net : Nat → JVal → Wire)
    (tk : Int) : ∀ (qs : List ResponseItem) (k : Nat),
    (runAux decode net tk k qs).length = qs.length := by
  intro qs
  induction qs with
  | nil => intro k; rfl
  | cons q rest ih => intro k; simpa [runAux] using ih (k + 1)

lemma runAux_get (decode : String → Option JVal) (net : Nat → JVal → Wire)
    (tk : Int) : ∀ (qs : List ResponseItem) (k i : Nat),
    (runAux decode net tk k qs)[i]? =
      (qs[i]?).map (itemOutcome decode (net (k + i)) tk (k + i)) := by
  intro qs
  induction qs with
  | nil => intro k i; simp [runAux]
  | cons q rest ih =>
    intro k i
    cases i with
    | zero => simp [runAux]
    | succ i =>
      have := ih (k + 1) i
      simpa [runAux, Nat.add_assoc, Nat.add_comm 1 i] using this

/-- C1: for every input sequence of N requirement records, the orchestration
loop produces a collection of length exactly N whose i-th element (0-based) is
the outcome computed for the i-th record at call position i+1, for every
behaviour of the network — in particular regardless of how many calls fail. -/
theorem run_loop_length_and_order (decode : String → Option JVal)
    (net : Nat → JVal → Wire) (tk : Int) (qs : List ResponseItem) :
    (run_loop decode net tk qs).length = qs.length ∧
    ∀ i : Nat, (run_loop decode net tk qs)[i]? =
      (qs[i]?).map (itemOutcome decode (net (i + 1)) tk (i + 1)) := by
  constructor
  · exact runAux_length decode net tk qs 1
  · intro i
    simpa [run_loop, Nat.add_comm 1 i] using runAux_get decode net tk qs 1 i

/-- C2: when the remote call at position k fails with a transport error, slot k
of the result collection is the failure placeholder, the loop still completes
all items (full length), and any slot j distinct from k only depends on the
network behaviour at its own call position. -/
theorem run_loop_isolated_failure (decode : String → Option JVal)
    (net net2 : Nat → JVal → Wire) (tk : Int) (qs : List ResponseItem)
    (k j : Nat) (e : String)
    (hfail : ∀ b, net (k + 1) b = Wire.transportError e)
    (hk : k < qs.length) (_hj : j ≠ k)
    (hagree : net (j + 1) = net2 (j + 1)) :
    (run_loop decode net tk qs).length = qs.length ∧
    (run_loop decode net tk qs)[k]? = some (errEntry (k + 1)) ∧
    (run_loop decode net tk qs)[j]? = (run_loop decode net2 tk qs)[j]? := by
  refine ⟨runAux_length decode net tk qs 1, ?_, ?_⟩
  · have hg := runAux_get decode net tk qs 1 k
    obtain ⟨q, hq⟩ : ∃ q, qs[k]? = some q :=
      ⟨qs.get ⟨k, hk⟩, List.getElem?_eq_some_iff.2 ⟨hk, rfl⟩⟩
    rw [run_loop, hg, hq, Nat.add_comm 1 k]
    simp [itemOutcome, call_api_one, hfail]
  · have hg := runAux_get decode net tk qs 1 j
    have hg2 := runAux_get decode net2 tk qs 1 j
    rw [run_loop, run_loop, hg, hg2, Nat.add_comm 1 j, hagree]

/-- Concrete decode oracle for witnesses: only the body "ok" parses. -/
def dec0 : String → Option JVal :=
  fun s => if s = "ok" then some (JVal.jobj [("response", JVal.jstr "fine")]) else none

/-- Network oracle failing exactly at call position 2. -/
def netA : Nat → JVal → Wire :=
  fun i _ => if i = 2 then Wire.transportError "boom" else Wire.response 200 "ok"

/-- Network oracle succeeding everywhere; agrees with `netA` off position 2. -/
def netB : Nat → JVal → Wire :=
  fun _ _ => Wire.response 200 "ok"

/-- Concrete question list for witnesses. -/
def qs0 : List ResponseItem :=
  [⟨1, "a?", none, none, none, none, some 3⟩,
   ⟨2, "b?", none, none, none, none, some 3⟩,
   ⟨3, "c?", none, none, none, none, some 3⟩]

theorem run_loop_isolated_failure_witness :
    (run_loop dec0 netA 5 qs0).length = qs0.length ∧
    (run_loop dec0 netA 5 qs0)[1]? = some (errEntry 2) ∧
    (run_loop dec0 netA 5 qs0)[2]? = (run_loop dec0 netB 5 qs0)[2]? :=
  run_loop_isolated_failure dec0 netA netB 5 qs0 1 2 "boom"
    (fun _ => rfl) (by decide) (by decide) rfl

/-- Network oracle for single calls, always succeeding. -/
def netOk : JVal → Wire :=
  fun _ => Wire.response 200 "ok"

/-- Concrete record used by client-level witnesses. -/
def sampleReq : ResponseItem :=
  ⟨7, "Is the policy met?", none, none, none, none, some 3⟩

/-- C3 counterexample: a transport failure and an HTTP 500 response produce
identical outcomes — same returned value (`None`), same handling branch
(`except RequestException`), same single request — so the caller cannot tell
the failure kinds apart, and neither the status code nor the body survives in
what the caller receives. -/
theorem call_api_one_failures_collapse :
    call_api_one (fun _ => none) (fun _ => Wire.transportError "connection refused") sampleReq =
      call_api_one (fun _ => none) (fun _ => Wire.response 500 "Internal Server Error") sampleReq :=
  rfl

lemma call_api_one_sent (decode : String → Option JVal) (net : JVal → Wire)
    (req : ResponseItem) : (call_api_one decode net req).sent = [payload_one req] := by
  cases hn : net (payload_one req) with
  | transportError m => simp [call_api_one, hn]
  | response st bd =>
    by_cases hr : raisesForStatus st
    · simp [call_api_one, hn, hr]
    · cases hd : decode bd <;> simp [call_api_one, hn, hr, hd]

lemma raisesForStatus_true {s : Nat} (hs : 400 ≤ s) (hs2 : s < 600) :
    raisesForStatus s = true := by
  simp only [raisesForStatus, Bool.and_eq_true, decide_eq_true_eq]
  exact ⟨hs, hs2⟩

/-- C3 amended: the client performs exactly one attempt per call (a single
request is posted); on a transport failure and on any HTTP status 400-599 the
caller receives `None` through the same `except RequestException` branch, so
those two conditions are not distinguishable by the caller; the separate
`except json.JSONDecodeError` branch fires exactly when a response with a
non-raising status has an undecodable body. -/
theorem call_api_one_single_attempt (decode : String → Option JVal)
    (net : JVal → Wire) (req : ResponseItem) (e : String) (s : Nat) (b : String)
    (hs : 400 ≤ s) (hs2 : s < 600) :
    (call_api_one decode net req).sent = [payload_one req] ∧
    (call_api_one decode (fun _ => Wire.transportError e) req).retval = none ∧
    (call_api_one decode (fun _ => Wire.response s b) req).retval = none ∧
    (call_api_one decode (fun _ => Wire.transportError e) req).caught =
      (call_api_one decode (fun _ => Wire.response s b) req).caught ∧
    ((call_api_one decode net req).caught = some Handler.jsonDecodeError ↔
      ∃ s2 b2, net (payload_one req) = Wire.response s2 b2 ∧
        raisesForStatus s2 = false ∧ decode b2 = none) := by
  have hr := raisesForStatus_true hs hs2
  refine ⟨call_api_one_sent decode net req, rfl, by simp [call_api_one, hr], by simp [call_api_one, hr], ?_⟩
  cases hn : net (payload_one req) with
  | transportError m => simp [call_api_one, hn]
  | response st bd =>
    by_cases hrs : raisesForStatus st
    · simp [call_api_one, hn, hrs]
    · cases hd : decode bd with
      | some j => simp [call_api_one, hn, hrs, hd]
      | none =>
        simp only [Bool.not_eq_true] at hrs
        constructor
        · intro _
          exact ⟨st, bd, rfl, hrs, hd⟩
        · intro _
          simp [call_api_one, hn, hrs, hd]

theorem call_api_one_single_attempt_witness :
    (call_api_one dec0 (fun _ => Wire.response 200 "junk") sampleReq).sent = [payload_one sampleReq] ∧
    (call_api_one dec0 (fun _ => Wire.transportError "x") sampleReq).retval = none ∧
    (call_api_one dec0 (fun _ => Wire.response 404 "nf") sampleReq).retval = none ∧
    (call_api_one dec0 (fun _ => Wire.transportError "x") sampleReq).caught =
      (call_api_one dec0 (fun _ => Wire.response 404 "nf") sampleReq).caught ∧
    ((call_api_one dec0 (fun _ => Wire.response 200 "junk") sampleReq).caught = some Handler.jsonDecodeError ↔
      ∃ s2 b2, (fun (_ : JVal) => Wire.response 200 "junk") (payload_one sampleReq) = Wire.response s2 b2 ∧
        raisesForStatus s2 = false ∧ dec0 b2 = none) :=
  call_api_one_single_attempt dec0 (fun _ => Wire.response 200 "junk") sampleReq "x" 404 "nf"
    (by decide) (by decide)

/-- C8: if a record's `top_k` field is 5 at submission time, the serialized
request body is `{"id": ..., "requirement": ..., "top_k": 5}` with the record's
current field values, that body is exactly what the single POST carries, and
the orchestrator's pre-submission assignment `question.top_k = 5` produces the
same serialized form. -/
theorem payload_top_k_five (decode : String → Option JVal) (net : JVal → Wire)
    (req q : ResponseItem) (h : req.top_k = some 5) :
    payload_one req = JVal.jobj [("id", JVal.jnum req.id),
        ("requirement", JVal.jstr req.requirement), ("top_k", JVal.jnum 5)] ∧
    (call_api_one decode net req).sent = [payload_one req] ∧
    payload_one (setTopK q 5) = JVal.jobj [("id", JVal.jnum q.id),
        ("requirement", JVal.jstr q.requirement), ("top_k", JVal.jnum 5)] := by
  refine ⟨?_, call_api_one_sent decode net req, rfl⟩
  simp [payload_one, h, jsonOfOptInt]

theorem payload_top_k_five_witness :
    payload_one ⟨2, "q?", none, none, none, none, some 5⟩ = JVal.jobj [("id", JVal.jnum 2),
        ("requirement", JVal.jstr "q?"), ("top_k", JVal.jnum 5)] ∧
    (call_api_one dec0 netOk ⟨2, "q?", none, none, none, none, some 5⟩).sent =
      [payload_one ⟨2, "q?", none, none, none, none, some 5⟩] ∧
    payload_one (setTopK sampleReq 5) = JVal.jobj [("id", JVal.jnum sampleReq.id),
        ("requirement", JVal.jstr sampleReq.requirement), ("top_k", JVal.jnum 5)] :=
  payload_top_k_five dec0 netOk ⟨2, "q?", none, none, none, none, some 5⟩ sampleReq rfl

/-- C9: extraction is deterministic — two invocations on identical input yield
identical ordered output.  The embedding is a pure function of the text: the
source reads no global state and `re` is deterministic. -/
theorem extract_questions_deterministic (t1 t2 : String) (h : t1 = t2) :
    extract_questions t1 = extract_questions t2 := by
  rw [h]

theorem extract_questions_deterministic_witness :
    extract_questions "1. Is X done?" = extract_questions "1. Is X done?" :=
  extract_questions_deterministic "1. Is X done?" "1. Is X done?" rfl

lemma findallAux_eq_nil : ∀ (fuel : Nat) (l : List Char),
    (∀ i, matchAt (l.drop i) = none) → findallAux fuel l = [] := by
  intro fuel
  induction fuel with
  | zero => intro l _; rfl
  | succ fuel ih =>
    intro l h
    cases l with
    | nil => rfl
    | cons c rest =>
      have h0 : matchAt (c :: rest) = none := by simpa using h 0
      have h1 : ∀ i, matchAt (rest.drop i) = none := by
        intro i; simpa [List.drop_succ_cons] using h (i + 1)
      simp [findallAux, h0, ih rest h1]

/-- C7: if the pattern matches at no position of the text, extraction returns
the empty sequence (extraction is a total function of its input, so nothing is
raised). -/
theorem extract_questions_empty (text : String)
    (h : ∀ i, i < text.toList.length → matchAt (text.toList.drop i) = none) :
    extract_questions text = [] := by
  have h' : ∀ i, matchAt (text.toList.drop i) = none := by
    intro i
    rcases lt_or_ge i text.toList.length with hi | hi
    · exact h i hi
    · rw [List.drop_eq_nil_of_le hi]
      rfl
  rw [extract_questions, findall, findallAux_eq_nil _ _ h']
  rfl

theorem extract_questions_empty_witness :
    extract_questions "no questions here" = [] :=
  extract_questions_empty "no questions here" (by decide)

/-- Fold state of `pySplit` over a suffix. -/
def pyState (l : List Char) : List (List Char) × Bool :=
  l.foldr pySplitStep ([], false)

lemma pySplit_def (l : List Char) : pySplit l = (pyState l).1 :=
  rfl

lemma pyState_cons (c : Char) (l : List Char) :
    pyState (c :: l) = pySplitStep c (pyState l) :=
  rfl

lemma pySplitStep_space {c : Char} (hc : isPySpace c = true)
    (s : List (List Char) × Bool) : pySplitStep c s = (s.1, false) := by
  unfold pySplitStep
  rw [hc]
  simp

lemma pySplitStep_tok_false {c : Char} (hc : isPySpace c = false)
    (ts : List (List Char)) : pySplitStep c (ts, false) = ([c] :: ts, true) := by
  unfold pySplitStep
  rw [hc]
  simp

lemma pySplitStep_tok_nil {c : Char} (hc : isPySpace c = false) :
    pySplitStep c ([], true) = ([[c]], true) := by
  unfold pySplitStep
  rw [hc]
  simp

lemma pySplitStep_tok_cons {c : Char} (hc : isPySpace c = false)
    (t : List Char) (ts : List (List Char)) :
    pySplitStep c (t :: ts, true) = ((c :: t) :: ts, true) := by
  unfold pySplitStep
  rw [hc]
  simp

lemma pyState_flag {c : Char} (hc : isPySpace c = false) (l : List Char) :
    (pyState (c :: l)).2 = true := by
  rw [pyState_cons]
  rcases pyState l with ⟨ts, flag⟩
  cases flag
  · rw [pySplitStep_tok_false hc]
  · cases ts
    · rw [pySplitStep_tok_nil hc]
    · rw [pySplitStep_tok_cons hc]

lemma pySplit_cons_space {c : Char} (hc : isPySpace c = true) (l : List Char) :
    pySplit (c :: l) = pySplit l := by
  rw [pySplit_def, pySplit_def, pyState_cons, pySplitStep_space hc]

lemma pySplit_cons_tok {c : Char} (hc : isPySpace c = false) : ∀ l : List Char,
    pySplit (c :: l) =
      (c :: l.takeWhile (fun x => !isPySpace x)) :: pySplit (l.dropWhile (fun x => !isPySpace x)) := by
  intro l
  induction l generalizing c with
  | nil =>
    rw [pySplit_def, pyState_cons]
    show (pySplitStep c ([], false)).1 = _
    rw [pySplitStep_tok_false hc]
    simp [pySplit]
  | cons d l2 ih =>
    by_cases hd : isPySpace d = true
    · have hpair : pyState (d :: l2) = ((pyState l2).1, false) := by
        rw [pyState_cons, pySplitStep_space hd]
      rw [pySplit_def, pyState_cons, hpair, pySplitStep_tok_false hc]
      simp only [List.takeWhile_cons, List.dropWhile_cons, hd]
      simp [pySplit_def, hpair]
    · have hd2 : isPySpace d = false := by simpa using hd
      have hflag := pyState_flag hd2 l2
      have hsplit := ih hd2
      rcases hps : pyState (d :: l2) with ⟨ts, flag⟩
      have hflag2 : flag = true := by rw [hps] at hflag; exact hflag
      subst hflag2
      have hts : ts = (d :: l2.takeWhile (fun x => !isPySpace x)) ::
          pySplit (l2.dropWhile (fun x => !isPySpace x)) := by
        rw [pySplit_def, hps] at hsplit
        exact hsplit
      subst hts
      rw [pySplit_def, pyState_cons, hps, pySplitStep_tok_cons hc]
      simp only [List.takeWhile_cons, List.dropWhile_cons, hd2]
      simp

lemma pySplit_tokens : ∀ (n : Nat) (l : List Char), l.length ≤ n →
    ∀ t ∈ pySplit l, t ≠ [] ∧ ∀ c ∈ t, isPySpace c = false := by
  intro n
  induction n with
  | zero =>
    intro l hl t ht
    have : l = [] := List.length_eq_zero.1 (Nat.le_zero.1 hl)
    subst this
    simp [pySplit, pyState] at ht
  | succ n ih =>
    intro l hl t ht
    cases l with
    | nil => simp [pySplit, pyState] at ht
    | cons c l2 =>
      by_cases hc : isPySpace c = true
      · rw [pySplit_cons_space hc] at ht
        exact ih l2 (by simpa using Nat.succ_le_succ_iff.1 hl) t ht
      · have hc2 : isPySpace c = false := by simpa using hc
        rw [pySplit_cons_tok hc2] at ht
        rcases List.mem_cons.1 ht with h | h
        · subst h
          refine ⟨by simp, ?_⟩
          intro x hx
          rcases List.mem_cons.1 hx with h | h
          · subst h; exact hc2
          · have := List.mem_takeWhile_imp h
            simpa using this
        · have hlen : (l2.dropWhile (fun x => !isPySpace x)).length ≤ n := by
            have h1 := (List.dropWhile_sublist (l := l2) (fun x => !isPySpace x)).length_le
            have h2 : l2.length ≤ n := by simpa using Nat.succ_le_succ_iff.1 hl
            omega
          exact ih _ hlen t h

lemma pySplit_flatten : ∀ (n : Nat) (l : List Char), l.length ≤ n →
    (pySplit l).flatten = l.filter (fun c => !isPySpace c) := by
  intro n
  induction n with
  | zero =>
    intro l hl
    have : l = [] := List.length_eq_zero.1 (Nat.le_zero.1 hl)
    subst this
    simp [pySplit, pyState]
  | succ n ih =>
    intro l hl
    cases l with
    | nil => simp [pySplit, pyState]
    | cons c l2 =>
      have h2 : l2.length ≤ n := by simpa using Nat.succ_le_succ_iff.1 hl
      by_cases hc : isPySpace c = true
      · rw [pySplit_cons_space hc, ih l2 h2]
        simp [List.filter_cons, hc]
      · have hc2 : isPySpace c = false := by simpa using hc
        rw [pySplit_cons_tok hc2]
        have hlen : (l2.dropWhile (fun x => !isPySpace x)).length ≤ n := by
          have h1 := (List.dropWhile_sublist (l := l2) (fun x => !isPySpace x)).length_le
          omega
        have hdrop := ih _ hlen
        have htake : (l2.takeWhile (fun x => !isPySpace x)).filter (fun c => !isPySpace c) =
            l2.takeWhile (fun x => !isPySpace x) := by
          rw [List.filter_eq_self]
          intro a ha
          simpa using List.mem_takeWhile_imp ha
        calc ((c :: l2.takeWhile (fun x => !isPySpace x)) ::
                pySplit (l2.dropWhile (fun x => !isPySpace x))).flatten
            = c :: (l2.takeWhile (fun x => !isPySpace x) ++
                (l2.dropWhile (fun x => !isPySpace x)).filter (fun c => !isPySpace c)) := by
              rw [List.flatten_cons, hdrop]; simp
          _ = c :: ((l2.takeWhile (fun x => !isPySpace x)).filter (fun c => !isPySpace c) ++
                (l2.dropWhile (fun x => !isPySpace x)).filter (fun c => !isPySpace c)) := by
              rw [htake]
          _ = (c :: l2).filter (fun c => !isPySpace c) := by
              rw [← List.filter_append, List.takeWhile_append_dropWhile]
              simp [List.filter_cons, hc2]

lemma pySplit_last : ∀ (n : Nat) (l : List Char), l.length ≤ n →
    ∀ c : Char, isPySpace c = false → l.getLast? = some c →
    ∃ init t, pySplit l = init ++ [t] ∧ t.getLast? = some c := by
  intro n
  induction n with
  | zero =>
    intro l hl c _ hlast
    have : l = [] := List.length_eq_zero.1 (Nat.le_zero.1 hl)
    subst this
    simp at hlast
  | succ n ih =>
    intro l hl c hc hlast
    cases l with
    | nil => simp at hlast
    | cons d l2 =>
      have h2 : l2.length ≤ n := by simpa using Nat.succ_le_succ_iff.1 hl
      by_cases hd : isPySpace d = true
      · cases l2 with
        | nil =>
          simp at hlast
          subst hlast
          rw [hd] at hc
          cases hc
        | cons x xs =>
          have hlast2 : (x :: xs).getLast? = some c := by
            rw [List.getLast?_cons_cons] at hlast
            exact hlast
          rw [pySplit_cons_space hd]
          exact ih (x :: xs) h2 c hc hlast2
      · have hd2 : isPySpace d = false := by simpa using hd
        rw [pySplit_cons_tok hd2]
        rcases hdw : l2.dropWhile (fun x => !isPySpace x) with _ | ⟨w, ws⟩
        · refine ⟨[], d :: l2.takeWhile (fun x => !isPySpace x), by simp [hdw, pySplit, pyState], ?_⟩
          have : l2.takeWhile (fun x => !isPySpace x) = l2 := by
            have := List.takeWhile_append_dropWhile (p := fun x => !isPySpace x) (l := l2)
            rw [hdw] at this
            simpa using this
          rw [this]
          exact hlast
        · have hlen : (l2.dropWhile (fun x => !isPySpace x)).length ≤ n := by
            have h1 := (List.dropWhile_sublist (l := l2) (fun x => !isPySpace x)).length_le
            omega
          have hlast2 : (l2.dropWhile (fun x => !isPySpace x)).getLast? = some c := by
            have hsplit : d :: l2 = (d :: l2.takeWhile (fun x => !isPySpace x)) ++
                l2.dropWhile (fun x => !isPySpace x) := by
              simp [List.takeWhile_append_dropWhile]
            rw [hsplit, List.getLast?_append, hdw] at hlast
            rw [hdw]
            rcases hws : (w :: ws).getLast? with _ | y
            · simp [List.getLast?_eq_none_iff] at hws
            · simp only [hws, Option.or_some] at hlast
              exact hlast
          obtain ⟨init, t, hpt, hlt⟩ := ih _ hlen c hc hlast2
          rw [hdw] at hpt
          exact ⟨(d :: l2.takeWhile (fun x => !isPySpace x)) :: init, t, by rw [hpt]; rfl, hlt⟩

lemma takeWhile_all_append {α : Type} (p : α → Bool) : ∀ (a : List α) (b : α) (z : List α),
    (∀ x ∈ a, p x = true) → p b = false → (a ++ b :: z).takeWhile p = a := by
  intro a
  induction a with
  | nil => intro b z _ hb; simp [List.takeWhile_cons, hb]
  | cons x xs ih =>
    intro b z ha hb
    have hx : p x = true := ha x (by simp)
    simp only [List.cons_append, List.takeWhile_cons, hx]
    simp [ih b z (fun y hy => ha y (by simp [hy])) hb]

lemma dropWhile_all_append {α : Type} (p : α → Bool) : ∀ (a : List α) (b : α) (z : List α),
    (∀ x ∈ a, p x = true) → p b = false → (a ++ b :: z).dropWhile p = b :: z := by
  intro a
  induction a with
  | nil => intro b z _ hb; simp [List.dropWhile_cons, hb]
  | cons x xs ih =>
    intro b z ha hb
    have hx : p x = true := ha x (by simp)
    simp only [List.cons_append, List.dropWhile_cons, hx]
    simp [ih b z (fun y hy => ha y (by simp [hy])) hb]

lemma intercalate_nil (s : List Char) : List.intercalate s ([] : List (List Char)) = [] := by
  simp [List.intercalate]

lemma intercalate_single (s t : List Char) : List.intercalate s [t] = t := by
  simp [List.intercalate]

lemma intercalate_cons_cons (s t u : List Char) (us : List (List Char)) :
    List.intercalate s (t :: u :: us) = t ++ s ++ List.intercalate s (u :: us) := by
  simp [List.intercalate, List.intersperse_cons_cons, List.append_assoc]

lemma intercalate_getLast : ∀ (init : List (List Char)) (t : List Char), t ≠ [] →
    (List.intercalate [' '] (init ++ [t])).getLast? = t.getLast? := by
  intro init
  induction init with
  | nil => intro t _; simp [intercalate_single]
  | cons u init2 ih =>
    intro t ht
    rcases hsplit : init2 ++ [t] with _ | ⟨v, vs⟩
    · exact absurd hsplit (by simp)
    · rw [List.cons_append, hsplit, intercalate_cons_cons, ← hsplit, List.getLast?_append,
        List.getLast?_append]
      have hlast := ih t ht
      obtain ⟨y, hy⟩ := Option.isSome_iff_exists.1
        ((List.getLast?_isSome).2 ht)
      rw [hlast, hy]
      rfl

lemma intercalate_head (t : List Char) (rest : List (List Char)) (ht : t ≠ []) :
    (List.intercalate [' '] (t :: rest)).head? = t.head? := by
  cases rest with
  | nil => rw [intercalate_single]
  | cons u us =>
    rw [intercalate_cons_cons, List.append_assoc, List.head?_append]
    obtain ⟨y, hy⟩ := Option.isSome_iff_exists.1 ((List.head?_isSome).2 ht)
    rw [hy]
    rfl

lemma cleanChars_getLast (l : List Char) {c : Char} (hc : isPySpace c = false)
    (hl : l.getLast? = some c) : (cleanChars l).getLast? = some c := by
  obtain ⟨init, t, hpt, hlt⟩ := pySplit_last l.length l (Nat.le_refl _) c hc hl
  have ht : t ≠ [] := by
    intro h
    subst h
    simp at hlt
  rw [cleanChars, hpt, intercalate_getLast init t ht, hlt]

lemma count_intercalate : ∀ ts : List (List Char),
    List.count '?' (List.intercalate [' '] ts) = List.count '?' ts.flatten := by
  intro ts
  induction ts with
  | nil => rw [intercalate_nil]; simp
  | cons t rest ih =>
    cases rest with
    | nil => simp [intercalate_single]
    | cons u us =>
      rw [intercalate_cons_cons, List.flatten_cons]
      simp only [List.count_append]
      rw [ih]
      simp [List.count_append]

lemma cleanChars_count (l : List Char) :
    List.count '?' (cleanChars l) = List.count '?' l := by
  rw [cleanChars, count_intercalate, pySplit_flatten l.length l (Nat.le_refl _)]
  exact List.count_filter (by decide)

lemma pySplit_all_tok {c : Char} (t : List Char) (hc : isPySpace c = false)
    (ht : ∀ x ∈ t, isPySpace x = false) : pySplit (c :: t) = [c :: t] := by
  rw [pySplit_cons_tok hc]
  have htake : t.takeWhile (fun x => !isPySpace x) = t := by
    rw [List.takeWhile_eq_self_iff]
    intro a ha
    simp [ht a ha]
  have hdrop : t.dropWhile (fun x => !isPySpace x) = [] := by
    rw [List.dropWhile_eq_nil_iff]
    intro a ha
    simp [ht a ha]
  rw [htake, hdrop]
  rfl

lemma pySplit_tok_space {c : Char} (t rest : List Char) (hc : isPySpace c = false)
    (ht : ∀ x ∈ t, isPySpace x = false) :
    pySplit ((c :: t) ++ ' ' :: rest) = (c :: t) :: pySplit rest := by
  rw [List.cons_append, pySplit_cons_tok hc]
  have htake := takeWhile_all_append (fun x => !isPySpace x) t ' ' rest
    (fun x hx => by simp [ht x hx]) (by decide)
  have hdrop := dropWhile_all_append (fun x => !isPySpace x) t ' ' rest
    (fun x hx => by simp [ht x hx]) (by decide)
  rw [htake, hdrop, pySplit_cons_space (by decide)]

lemma pySplit_intercalate : ∀ ts : List (List Char),
    (∀ t ∈ ts, t ≠ [] ∧ ∀ c ∈ t, isPySpace c = false) →
    pySplit (List.intercalate [' '] ts) = ts := by
  intro ts
  induction ts with
  | nil => intro _; rw [intercalate_nil]; rfl
  | cons t rest ih =>
    intro h
    obtain ⟨ht, hchars⟩ := h t (by simp)
    obtain ⟨c, t2, hct⟩ : ∃ c t2, t = c :: t2 := by
      cases t with
      | nil => exact absurd rfl ht
      | cons c t2 => exact ⟨c, t2, rfl⟩
    subst hct
    have hc : isPySpace c = false := hchars c (by simp)
    have ht2 : ∀ x ∈ t2, isPySpace x = false := fun x hx => hchars x (by simp [hx])
    cases rest with
    | nil =>
      rw [intercalate_single]
      exact pySplit_all_tok t2 hc ht2
    | cons u us =>
      rw [intercalate_cons_cons, List.append_assoc]
      have : ([' '] : List Char) ++ List.intercalate [' '] (u :: us) =
          ' ' :: List.intercalate [' '] (u :: us) := rfl
      rw [this, pySplit_tok_space t2 _ hc ht2, ih (fun v hv => h v (by simp [hv]))]

lemma cleanChars_idem (l : List Char) : cleanChars (cleanChars l) = cleanChars l := by
  show List.intercalate [' '] (pySplit (cleanChars l)) = cleanChars l
  rw [cleanChars, pySplit_intercalate (pySplit l)
    (fun t ht => pySplit_tokens l.length l (Nat.le_refl _) t ht)]

lemma grabToQ_shape : ∀ (l g r : List Char), grabToQ l = some (g, r) →
    ∃ a, g = a ++ ['?'] ∧ '?' ∉ a ∧ l = a ++ '?' :: r := by
  intro l
  induction l with
  | nil => intro g r h; simp [grabToQ] at h
  | cons c rest ih =>
    intro g r h
    by_cases hc : c = '?'
    · subst hc
      rw [grabToQ] at h
      simp at h
      obtain ⟨hg, hr⟩ := h
      exact ⟨[], by simp [hg.symm], by simp, by simp [hr]⟩
    · rw [grabToQ] at h
      simp [hc] at h
      rcases hrec : grabToQ rest with _ | ⟨g2, r2⟩
      · rw [hrec] at h; simp at h
      · rw [hrec] at h
        simp at h
        obtain ⟨hg, hr⟩ := h
        obtain ⟨a, ha1, ha2, ha3⟩ := ih g2 r2 (by rw [hrec, hr])
        refine ⟨c :: a, ?_, ?_, ?_⟩
        · rw [← hg, ha1]; rfl
        · simp only [List.mem_cons, not_or]
          exact ⟨fun h => hc h.symm, ha2⟩
        · rw [ha3, hr]; simp

lemma grabToQ_none : ∀ l : List Char, grabToQ l = none ↔ '?' ∉ l := by
  intro l
  induction l with
  | nil => simp [grabToQ]
  | cons c rest ih =>
    by_cases hc : c = '?'
    · subst hc
      simp [grabToQ]
    · rw [grabToQ]
      simp only [hc, if_false]
      rcases hrec : grabToQ rest with _ | p
      · simp only [List.mem_cons, not_or]
        constructor
        · intro _
          exact ⟨fun h => hc h.symm, ih.1 hrec⟩
        · intro _
          trivial
      · constructor
        · intro h; simp at h
        · intro h
          rw [List.mem_cons] at h
          push_neg at h
          have := ih.2 h.2
          rw [this] at hrec
          cases hrec

lemma grabToQ_of_first : ∀ (a z : List Char), '?' ∉ a →
    grabToQ (a ++ '?' :: z) = some (a ++ ['?'], z) := by
  intro a
  induction a with
  | nil => intro z _; simp [grabToQ]
  | cons c a2 ih =>
    intro z ha
    have hc : ¬ c = '?' := fun h => ha (by simp [h])
    have ha2 : '?' ∉ a2 := fun h => ha (by simp [h])
    rw [List.cons_append, grabToQ]
    simp only [hc, if_false]
    rw [ih z ha2]
    simp

lemma dropWhile_head_false {α : Type} (p : α → Bool) :
    ∀ (l : List α) (c : α) (t : List α), l.dropWhile p = c :: t → p c = false := by
  intro l
  induction l with
  | nil => intro c t h; simp [List.dropWhile] at h
  | cons x xs ih =>
    intro c t h
    rw [List.dropWhile_cons] at h
    by_cases hx : p x = true
    · rw [if_pos hx] at h
      exact ih c t h
    · rw [if_neg hx] at h
      cases h
      simpa using hx

lemma matchGroup_some_decomp (ws rest3 g r : List Char)
    (h : matchGroup ws rest3 = some (g, r)) :
    ∃ c0 tail, rest3 = c0 :: tail ∧
      ((∃ a, g = c0 :: a ++ ['?'] ∧ '?' ∉ a ∧ tail = a ++ '?' :: r) ∨
       (grabToQ tail = none ∧ c0 = '?' ∧ r = tail ∧
         ∃ w, ws.getLast? = some w ∧ g = [w, '?'])) := by
  cases rest3 with
  | nil => simp [matchGroup] at h
  | cons c0 tail =>
    refine ⟨c0, tail, rfl, ?_⟩
    rw [matchGroup] at h
    rcases hg : grabToQ tail with _ | ⟨g2, r2⟩
    · rw [hg] at h
      by_cases hc : c0 = '?'
      · rw [if_pos hc] at h
        rcases hw : ws.getLast? with _ | w
        · rw [hw] at h; cases h
        · rw [hw] at h
          simp at h
          exact Or.inr ⟨rfl, hc, h.2.symm, w, rfl, h.1.symm⟩
      · rw [if_neg hc] at h; cases h
    · rw [hg] at h
      simp at h
      obtain ⟨hgg, hrr⟩ := h
      obtain ⟨a, ha1, ha2, ha3⟩ := grabToQ_shape tail g2 r2 hg
      exact Or.inl ⟨a, by rw [← hgg, ha1]; rfl, ha2, by rw [ha3, hrr]⟩

lemma matchAt_some_decomp (l g r : List Char) (h : matchAt l = some (g, r)) :
    ∃ ds rest2, l = ds ++ '.' :: rest2 ∧ ds ≠ [] ∧ (∀ c ∈ ds, Char.isDigit c = true) ∧
      matchGroup (rest2.takeWhile isPySpace) (rest2.dropWhile isPySpace) = some (g, r) := by
  unfold matchAt at h
  split at h
  next hd1 hd2 =>
    rename_i x xs rest2
    refine ⟨l.takeWhile Char.isDigit, rest2, ?_, by rw [hd1]; simp, ?_, h⟩
    · conv_lhs => rw [← List.takeWhile_append_dropWhile (p := Char.isDigit) (l := l)]
      rw [hd2]
    · intro c hc
      exact List.mem_takeWhile_imp hc
  next => cases h

lemma matchAt_shape (l g r : List Char) (h : matchAt l = some (g, r)) :
    (∃ c0 a, g = c0 :: a ++ ['?'] ∧ '?' ∉ a ∧ isPySpace c0 = false) ∨
    (∃ w, isPySpace w = true ∧ g = [w, '?'] ∧ '?' ∉ r) := by
  obtain ⟨ds, rest2, _, _, _, hmg⟩ := matchAt_some_decomp l g r h
  obtain ⟨c0, tail, hr3, hcase⟩ := matchGroup_some_decomp _ _ _ _ hmg
  have hc0 : isPySpace c0 = false := dropWhile_head_false isPySpace rest2 c0 tail hr3
  rcases hcase with ⟨a, hg, ha, _⟩ | ⟨hnone, hq, hrt, w, hw, hgw⟩
  · exact Or.inl ⟨c0, a, hg, ha, hc0⟩
  · refine Or.inr ⟨w, ?_, hgw, ?_⟩
    · exact List.mem_takeWhile_imp (List.mem_of_getLast?_eq_some hw)
    · rw [hrt]
      exact (grabToQ_none tail).1 hnone

lemma matchAt_remaining_length (l g r : List Char) (h : matchAt l = some (g, r)) :
    r.length < l.length := by
  obtain ⟨ds, rest2, hl, hds, _, hmg⟩ := matchAt_some_decomp l g r h
  obtain ⟨c0, tail, hr3, hcase⟩ := matchGroup_some_decomp _ _ _ _ hmg
  have hr2 : rest2.length = (rest2.takeWhile isPySpace).length + tail.length + 1 := by
    conv_lhs => rw [← List.takeWhile_append_dropWhile (p := isPySpace) (l := rest2)]
    rw [hr3]
    simp
    omega
  have hlen : l.length = ds.length + rest2.length + 1 := by
    rw [hl]; simp; omega
  have hds1 : 1 ≤ ds.length := by
    cases ds with
    | nil => exact absurd rfl hds
    | cons x xs => simp
  rcases hcase with ⟨a, _, _, htail⟩ | ⟨_, _, hrt, _⟩
  · have : tail.length = a.length + r.length + 1 := by rw [htail]; simp; omega
    omega
  · have : r.length = tail.length := by rw [hrt]
    omega

lemma matchAt_has_q (l : List Char) (p : List Char × List Char)
    (h : matchAt l = some p) : '?' ∈ l := by
  obtain ⟨ds, rest2, hl, _, _, hmg⟩ := matchAt_some_decomp l p.1 p.2 (by rw [h])
  obtain ⟨c0, tail, hr3, hcase⟩ := matchGroup_some_decomp _ _ _ _ hmg
  have htl : rest2 = rest2.takeWhile isPySpace ++ (c0 :: tail) := by
    conv_lhs => rw [← List.takeWhile_append_dropWhile (p := isPySpace) (l := rest2)]
    rw [hr3]
  rcases hcase with ⟨a, _, _, htail⟩ | ⟨_, hq, _, _⟩
  · have : '?' ∈ tail := by rw [htail]; simp
    rw [hl, htl]
    simp [this]
  · subst hq
    rw [hl, htl]
    simp

lemma findallAux_fuel : ∀ (f1 : Nat) (l : List Char) (f2 : Nat),
    l.length ≤ f1 → l.length ≤ f2 → findallAux f1 l = findallAux f2 l := by
  intro f1
  induction f1 with
  | zero =>
    intro l f2 h1 _
    have : l = [] := List.length_eq_zero.1 (Nat.le_zero.1 h1)
    subst this
    cases f2 <;> rfl
  | succ f ih =>
    intro l f2 h1 h2
    cases l with
    | nil => cases f2 <;> rfl
    | cons c rest =>
      cases f2 with
      | zero => simp at h2
      | succ f2b =>
        rw [findallAux, findallAux]
        rcases hm : matchAt (c :: rest) with _ | ⟨g, r⟩
        · have hr : rest.length ≤ f := by simpa using Nat.succ_le_succ_iff.1 h1
          have hr2 : rest.length ≤ f2b := by simpa using Nat.succ_le_succ_iff.1 h2
          show findallAux f rest = findallAux f2b rest
          exact ih rest f2b hr hr2
        · have hlt := matchAt_remaining_length _ _ _ hm
          have hr : r.length ≤ f := by
            have : (c :: rest).length ≤ f + 1 := h1
            simp at this hlt
            omega
          have hr2 : r.length ≤ f2b := by
            have : (c :: rest).length ≤ f2b + 1 := h2
            simp at this hlt
            omega
          show g :: findallAux f r = g :: findallAux f2b r
          rw [ih r f2b hr hr2]

lemma findall_nil : findall [] = [] :=
  rfl

lemma findall_cons (c : Char) (rest : List Char) :
    findall (c :: rest) =
      match matchAt (c :: rest) with
      | some (g, r) => g :: findall r
      | none => findall rest := by
  rw [findall, List.length_cons, findallAux]
  rcases hm : matchAt (c :: rest) with _ | ⟨g, r⟩
  · show findallAux rest.length rest = findall rest
    rfl
  · show g :: findallAux rest.length r = g :: findall r
    have hlt := matchAt_remaining_length _ _ _ hm
    rw [findall]
    rw [findallAux_fuel rest.length r r.length (by simp at hlt; omega) (Nat.le_refl _)]

lemma findallAux_no_q : ∀ (fuel : Nat) (l : List Char), '?' ∉ l →
    findallAux fuel l = [] := by
  intro fuel
  induction fuel with
  | zero => intro l _; rfl
  | succ f ih =>
    intro l hq
    cases l with
    | nil => rfl
    | cons c rest =>
      rw [findallAux]
      rcases hm : matchAt (c :: rest) with _ | ⟨g, r⟩
      · exact ih rest (fun h => hq (by simp [h]))
      · exact absurd (matchAt_has_q _ _ hm) hq

lemma findallAux_groups_end_q : ∀ (fuel : Nat) (l g : List Char),
    g ∈ findallAux fuel l → ∃ p, g = p ++ ['?'] := by
  intro fuel
  induction fuel with
  | zero => intro l g h; simp [findallAux] at h
  | succ f ih =>
    intro l g h
    cases l with
    | nil => simp [findallAux] at h
    | cons c rest =>
      rw [findallAux] at h
      rcases hm : matchAt (c :: rest) with _ | ⟨g2, r⟩
      · rw [hm] at h
        exact ih rest g h
      · rw [hm] at h
        rcases List.mem_cons.1 h with h1 | h1
        · subst h1
          rcases matchAt_shape _ _ _ hm with ⟨c0, a, hg, _, _⟩ | ⟨w, _, hg, _⟩
          · exact ⟨c0 :: a, by simp [hg]⟩
          · exact ⟨[w], by simp [hg]⟩
        · exact ih r g h1

lemma snd_mem_of_mem_enumFrom {α : Type} : ∀ (l : List α) (n : Nat) (p : Nat × α),
    p ∈ List.enumFrom n l → p.2 ∈ l := by
  intro l
  induction l with
  | nil => intro n p h; simp at h
  | cons x xs ih =>
    intro n p h
    rw [List.enumFrom_cons] at h
    rcases List.mem_cons.1 h with h1 | h1
    · subst h1; simp
    · exact List.mem_cons_of_mem x (ih (n + 1) p h1)

lemma mem_extract_decomp (text : String) (q : ResponseItem)
    (hq : q ∈ extract_questions text) :
    ∃ g i, g ∈ findall text.toList ∧
      q = ⟨(i : Int) + 1, (cleanChars g).asString, none, none, none, none, some 3⟩ := by
  rw [extract_questions] at hq
  obtain ⟨p, hp, hfp⟩ := List.mem_map.1 hq
  exact ⟨p.2, p.1, snd_mem_of_mem_enumFrom _ 0 p hp, hfp.symm⟩

lemma extract_requirement_facts (text : String) (q : ResponseItem)
    (hq : q ∈ extract_questions text) :
    q.requirement.toList.getLast? = some '?' ∧ q.requirement ≠ "" ∧
      (cleanChars q.requirement.toList).asString = q.requirement := by
  obtain ⟨g, i, hg, hrec⟩ := mem_extract_decomp text q hq
  obtain ⟨p, hp⟩ := findallAux_groups_end_q _ _ _ hg
  have hreq : q.requirement = (cleanChars g).asString := by rw [hrec]
  have htl : q.requirement.toList = cleanChars g := by
    rw [hreq, List.toList_asString]
  have hglast : g.getLast? = some '?' := by rw [hp]; exact List.getLast?_concat _
  have hclast : (cleanChars g).getLast? = some '?' :=
    cleanChars_getLast g (by decide) hglast
  refine ⟨by rw [htl]; exact hclast, ?_, ?_⟩
  · intro hempty
    have : q.requirement.toList = [] := by rw [hempty]; rfl
    rw [htl] at this
    rw [this] at hclast
    simp at hclast
  · rw [htl, cleanChars_idem, hreq]

/-- C4: for every input text, the extracted ids are exactly 1..N in match
order (dense, increasing, 1-based), and every requirement is non-empty, not
whitespace-only, and ends in a question mark. -/
theorem extract_questions_invariants (text : String) :
    (extract_questions text).map (fun q => q.id) =
      (List.range (extract_questions text).length).map (fun n : Nat => (n : Int) + 1) ∧
    ∀ q, q ∈ extract_questions text →
      q.requirement ≠ "" ∧
      (q.requirement.toList.any fun c => !isPySpace c) = true ∧
      q.requirement.toList.getLast? = some '?' := by
  constructor
  · rw [extract_questions, List.map_map]
    have h1 : ((fun q : ResponseItem => q.id) ∘
        (fun p : Nat × List Char =>
          (⟨(p.1 : Int) + 1, (cleanChars p.2).asString, none, none, none, none, some 3⟩ :
            ResponseItem))) =
        (fun n : Nat => (n : Int) + 1) ∘ Prod.fst := rfl
    rw [h1, ← List.map_map, List.enum, List.enumFrom_map_fst, ← List.range_eq_range']
    congr 1
    rw [List.length_map, List.enumFrom_length]
  · intro q hq
    obtain ⟨hlast, hne, _⟩ := extract_requirement_facts text q hq
    refine ⟨hne, ?_, hlast⟩
    rw [List.any_eq_true]
    exact ⟨'?', List.mem_of_getLast?_eq_some hlast, by decide⟩

theorem extract_questions_invariants_witness :
    ((extract_questions "1. Is X done?").map (fun q => q.id) =
      (List.range (extract_questions "1. Is X done?").length).map (fun n : Nat => (n : Int) + 1)) ∧
    ((⟨1, "Is X done?", none, none, none, none, some 3⟩ : ResponseItem).requirement ≠ "" ∧
      ((⟨1, "Is X done?", none, none, none, none, some 3⟩ :
          ResponseItem).requirement.toList.any fun c => !isPySpace c) = true ∧
      (⟨1, "Is X done?", none, none, none, none, some 3⟩ :
          ResponseItem).requirement.toList.getLast? = some '?') :=
  ⟨(extract_questions_invariants "1. Is X done?").1,
    (extract_questions_invariants "1. Is X done?").2
      ⟨1, "Is X done?", none, none, none, none, some 3⟩ (by decide)⟩

/-- C6: extraction normalizes the captured text — whitespace runs (newlines
included) collapse to single spaces with both ends trimmed: the concrete text
yields requirement "Is Z ok?", and in general every extracted requirement is a
fixed point of the normalizer (already collapsed and trimmed). -/
theorem extract_questions_normalizes :
    extract_questions "3.   Is\n  Z  ok?" =
      [⟨1, "Is Z ok?", none, none, none, none, some 3⟩] ∧
    ∀ (t : String) (q : ResponseItem), q ∈ extract_questions t →
      (cleanChars q.requirement.toList).asString = q.requirement := by
  constructor
  · decide
  · intro t q hq
    exact (extract_requirement_facts t q hq).2.2

theorem extract_questions_normalizes_witness :
    extract_questions "3.   Is\n  Z  ok?" =
      [⟨1, "Is Z ok?", none, none, none, none, some 3⟩] ∧
    (cleanChars (⟨1, "Is Z ok?", none, none, none, none, some 3⟩ :
        ResponseItem).requirement.toList).asString =
      (⟨1, "Is Z ok?", none, none, none, none, some 3⟩ : ResponseItem).requirement :=
  ⟨extract_questions_normalizes.1,
    extract_questions_normalizes.2 "3.   Is\n  Z  ok?"
      ⟨1, "Is Z ok?", none, none, none, none, some 3⟩ (by decide)⟩

lemma cleanChars_head_eq_filter (l : List Char)
    (hne : l.filter (fun c => !isPySpace c) ≠ []) :
    (cleanChars l).head? = (l.filter (fun c => !isPySpace c)).head? := by
  rcases hps : pySplit l with _ | ⟨t, ts⟩
  · exfalso
    have hff := pySplit_flatten l.length l (Nat.le_refl _)
    rw [hps] at hff
    simp only [List.flatten_nil] at hff
    exact hne hff.symm
  · have ht : t ≠ [] := (pySplit_tokens l.length l (Nat.le_refl _) t (by rw [hps]; simp)).1
    rw [cleanChars, hps, intercalate_head t ts ht]
    have hfl : l.filter (fun c => !isPySpace c) = t ++ ts.flatten := by
      rw [← pySplit_flatten l.length l (Nat.le_refl _), hps, List.flatten_cons]
    rw [hfl, List.head?_append]
    obtain ⟨y, hy⟩ := Option.isSome_iff_exists.1 ((List.head?_isSome).2 ht)
    rw [hy]
    rfl

/-- Shape every normalized requirement has: a fixed point of the normalizer
that is either the bare question mark, or a non-whitespace character followed
by question-mark-free text and a final question mark. -/
def GoodShape (r : List Char) : Prop :=
  cleanChars r = r ∧
  (r = ['?'] ∨ ∃ c mid, r = (c :: mid) ++ ['?'] ∧ '?' ∉ mid ∧ isPySpace c = false)

/-- Requirement list invariant: every element has a good shape and the bare
question mark can only be the final requirement (its match consumes every
remaining question mark of the text). -/
def GoodSeq : List (List Char) → Prop
  | [] => True
  | r :: rest => GoodShape r ∧ (r = ['?'] → rest = []) ∧ GoodSeq rest

lemma matchAt_good (l g r : List Char) (h : matchAt l = some (g, r)) :
    GoodShape (cleanChars g) ∧ (cleanChars g = ['?'] → '?' ∉ r) := by
  rcases matchAt_shape l g r h with ⟨c0, a, hg, ha, hc0⟩ | ⟨w, hw, hg, hr⟩
  · subst hg
    have hgl : ((c0 :: a) ++ ['?']).getLast? = some '?' := List.getLast?_concat _
    have hclast := cleanChars_getLast _ (by decide) hgl
    have hfilter : ((c0 :: a) ++ ['?']).filter (fun c => !isPySpace c) =
        c0 :: (a ++ ['?']).filter (fun c => !isPySpace c) := by
      rw [List.cons_append, List.filter_cons]
      simp [hc0]
    have hfne : ((c0 :: a) ++ ['?']).filter (fun c => !isPySpace c) ≠ [] := by
      rw [hfilter]
      simp
    have hhead : (cleanChars ((c0 :: a) ++ ['?'])).head? = some c0 := by
      rw [cleanChars_head_eq_filter _ hfne, hfilter]
      rfl
    have hca : List.count '?' a = 0 := List.count_eq_zero.2 ha
    have hcount : List.count '?' (cleanChars ((c0 :: a) ++ ['?'])) =
        1 + (if c0 = '?' then 1 else 0) := by
      rw [cleanChars_count, List.cons_append, List.count_cons, List.count_append, hca]
      by_cases hq : c0 = '?' <;> simp [hq]
    obtain ⟨m, hm⟩ := List.getLast?_eq_some_iff.1 hclast
    cases m with
    | nil =>
      exfalso
      simp only [List.nil_append] at hm
      rw [hm] at hhead hcount
      simp at hhead
      rw [← hhead] at hcount
      simp at hcount
    | cons c m2 =>
      have hc : c = c0 := by
        rw [hm] at hhead
        simp at hhead
        exact hhead
      subst hc
      have hm2 : '?' ∉ m2 := by
        rw [hm] at hcount
        by_cases hq : c = '?'
        · subst hq
          simp [List.count_append, List.count_cons] at hcount
          exact List.count_eq_zero.1 (by omega)
        · simp [List.count_append, List.count_cons, hq] at hcount
          exact List.count_eq_zero.1 (by omega)
      refine ⟨⟨cleanChars_idem _, Or.inr ⟨c, m2, hm, hm2, hc0⟩⟩, ?_⟩
      intro hone
      exfalso
      have hcontr : (c :: m2) ++ ['?'] = ['?'] := hm.symm.trans hone
      have := congrArg List.length hcontr
      simp at this
  · subst hg
    have hcw : cleanChars [w, '?'] = ['?'] := by
      show cleanChars (w :: ['?']) = ['?']
      rw [cleanChars, pySplit_cons_space hw]
      rfl
    rw [hcw]
    exact ⟨⟨by decide, Or.inl rfl⟩, fun _ => hr⟩

lemma findallAux_goodSeq : ∀ (fuel : Nat) (l : List Char),
    GoodSeq ((findallAux fuel l).map cleanChars) := by
  intro fuel
  induction fuel with
  | zero => intro l; trivial
  | succ f ih =>
    intro l
    cases l with
    | nil => trivial
    | cons c rest =>
      rw [findallAux]
      rcases hm : matchAt (c :: rest) with _ | ⟨g, r⟩
      · exact ih rest
      · show GoodSeq (cleanChars g :: (findallAux f r).map cleanChars)
        obtain ⟨hgs, hq⟩ := matchAt_good _ _ _ hm
        refine ⟨hgs, ?_, ih r⟩
        intro hone
        rw [findallAux_no_q f r (hq hone)]
        rfl

lemma digitChar_digit : ∀ m : Nat, m < 10 →
    (Nat.digitChar m).isDigit = true ∧ isPySpace (Nat.digitChar m) = false ∧
    Nat.digitChar m ≠ '?' := by
  decide

lemma toDigitsCore_digits : ∀ (fuel n : Nat) (acc : List Char),
    (∀ c ∈ acc, c.isDigit = true ∧ isPySpace c = false ∧ c ≠ '?') →
    ∀ c ∈ Nat.toDigitsCore 10 fuel n acc,
      c.isDigit = true ∧ isPySpace c = false ∧ c ≠ '?' := by
  intro fuel
  induction fuel with
  | zero => intro n acc hacc c hc; exact hacc c hc
  | succ f ih =>
    intro n acc hacc c hc
    rw [Nat.toDigitsCore] at hc
    have hd := digitChar_digit (n % 10) (Nat.mod_lt n (by omega))
    by_cases hz : n / 10 = 0
    · rw [if_pos hz] at hc
      rcases List.mem_cons.1 hc with h1 | h1
      · subst h1; exact hd
      · exact hacc c h1
    · rw [if_neg hz] at hc
      refine ih (n / 10) (Nat.digitChar (n % 10) :: acc) ?_ c hc
      intro x hx
      rcases List.mem_cons.1 hx with h1 | h1
      · subst h1; exact hd
      · exact hacc x h1

lemma toDigitsCore_ne_nil : ∀ (fuel n : Nat) (acc : List Char), acc ≠ [] →
    Nat.toDigitsCore 10 fuel n acc ≠ [] := by
  intro fuel
  induction fuel with
  | zero => intro n acc hacc; exact hacc
  | succ f ih =>
    intro n acc hacc
    rw [Nat.toDigitsCore]
    by_cases hz : n / 10 = 0
    · rw [if_pos hz]; simp
    · rw [if_neg hz]
      exact ih (n / 10) _ (by simp)

lemma repr_digits (n : Nat) :
    (Nat.repr n).toList ≠ [] ∧
    ∀ c ∈ (Nat.repr n).toList, c.isDigit = true ∧ isPySpace c = false ∧ c ≠ '?' := by
  have heq : (Nat.repr n).toList = Nat.toDigits 10 n := rfl
  rw [heq, Nat.toDigits]
  constructor
  · rw [Nat.toDigitsCore]
    by_cases hz : n / 10 = 0
    · rw [if_pos hz]; simp
    · rw [if_neg hz]
      exact toDigitsCore_ne_nil n (n / 10) _ (by simp)
  · exact toDigitsCore_digits (n + 1) n [] (by simp)

lemma int_toString_nat (k : Nat) : toString ((k : Int) + 1) = Nat.repr (k + 1) := by
  have h1 : ((k : Int) + 1) = ((k + 1 : Nat) : Int) := by push_cast; ring
  rw [h1]
  rfl

/-- Character-level form of the formatted requirement list with ids `k`,
`k + 1`, ...: each entry is the decimal id, a dot, one space and the
requirement, entries separated by a blank line. -/
def fmtChars (k : Nat) : List (List Char) → List Char
  | [] => []
  | [r] => (Nat.repr k).toList ++ ('.' :: ' ' :: r)
  | r :: r2 :: rest =>
    (Nat.repr k).toList ++ ('.' :: ' ' :: (r ++ ('\n' :: '\n' :: fmtChars (k + 1) (r2 :: rest))))

lemma matchAt_cons_nondigit {c : Char} (hc : Char.isDigit c = false) (l : List Char) :
    matchAt (c :: l) = none := by
  unfold matchAt
  have h : (c :: l).takeWhile Char.isDigit = [] := by
    rw [List.takeWhile_cons, hc]
    rfl
  rw [h]

lemma matchGroup_cons_grab (ws : List Char) (c0 : Char) (tail g r : List Char)
    (hg : grabToQ tail = some (g, r)) :
    matchGroup ws (c0 :: tail) = some (c0 :: g, r) := by
  rw [matchGroup, hg]

lemma matchGroup_cons_backtrack (ws : List Char) (tail : List Char) (w : Char)
    (hg : grabToQ tail = none) (hw : ws.getLast? = some w) :
    matchGroup ws ('?' :: tail) = some ([w, '?'], tail) := by
  rw [matchGroup, hg, if_pos rfl, hw]

lemma matchAt_fmt (n : Nat) (c : Char) (mid z : List Char)
    (hc : isPySpace c = false) (hmid : '?' ∉ mid) :
    matchAt ((Nat.repr n).toList ++ '.' :: ' ' :: c :: (mid ++ '?' :: z)) =
      some ((c :: mid) ++ ['?'], z) := by
  obtain ⟨hne, hdig⟩ := repr_digits n
  have htake := takeWhile_all_append Char.isDigit (Nat.repr n).toList '.'
    (' ' :: c :: (mid ++ '?' :: z)) (fun x hx => (hdig x hx).1) (by decide)
  have hdrop := dropWhile_all_append Char.isDigit (Nat.repr n).toList '.'
    (' ' :: c :: (mid ++ '?' :: z)) (fun x hx => (hdig x hx).1) (by decide)
  unfold matchAt
  rw [htake, hdrop]
  rcases hrepr : (Nat.repr n).toList with _ | ⟨d, ds⟩
  · exact absurd hrepr hne
  · show matchGroup ((' ' :: c :: (mid ++ '?' :: z)).takeWhile isPySpace)
      ((' ' :: c :: (mid ++ '?' :: z)).dropWhile isPySpace) = _
    have htw : (' ' :: c :: (mid ++ '?' :: z)).takeWhile isPySpace = [' '] := by
      rw [List.takeWhile_cons, List.takeWhile_cons]
      simp [hc]
      decide
    have hdw : (' ' :: c :: (mid ++ '?' :: z)).dropWhile isPySpace =
        c :: (mid ++ '?' :: z) := by
      rw [List.dropWhile_cons, List.dropWhile_cons]
      simp [hc]
      decide
    rw [htw, hdw, matchGroup_cons_grab [' '] c _ _ z (grabToQ_of_first mid z hmid)]
    rfl

lemma matchAt_fmt_lastq (n : Nat) :
    matchAt ((Nat.repr n).toList ++ '.' :: ' ' :: '?' :: []) =
      some ([' ', '?'], []) := by
  obtain ⟨hne, hdig⟩ := repr_digits n
  have htake := takeWhile_all_append Char.isDigit (Nat.repr n).toList '.'
    (' ' :: '?' :: []) (fun x hx => (hdig x hx).1) (by decide)
  have hdrop := dropWhile_all_append Char.isDigit (Nat.repr n).toList '.'
    (' ' :: '?' :: []) (fun x hx => (hdig x hx).1) (by decide)
  unfold matchAt
  rw [htake, hdrop]
  rcases hrepr : (Nat.repr n).toList with _ | ⟨d, ds⟩
  · exact absurd hrepr hne
  · show matchGroup ((' ' :: '?' :: []).takeWhile isPySpace)
      ((' ' :: '?' :: []).dropWhile isPySpace) = _
    have htw : (' ' :: '?' :: []).takeWhile isPySpace = [' '] := by decide
    have hdw : (' ' :: '?' :: []).dropWhile isPySpace = '?' :: [] := by decide
    rw [htw, hdw, matchGroup_cons_backtrack [' '] [] ' ' rfl rfl]

lemma cleanChars_space_q : cleanChars [' ', '?'] = ['?'] := by
  decide

lemma findall_fmt : ∀ (rs : List (List Char)) (k : Nat), GoodSeq rs →
    (findall (fmtChars (k + 1) rs)).map cleanChars = rs := by
  intro rs
  induction rs with
  | nil => intro k _; rfl
  | cons r rest ih =>
    intro k h
    obtain ⟨⟨hfix, hshape⟩, honeLast, hrest⟩ := h
    rcases hshape with hq | ⟨c, mid, hr, hmid, hc⟩
    · -- the bare question mark is the final requirement
      have hrestnil : rest = [] := honeLast hq
      subst hrestnil
      subst hq
      rcases hrepr : (Nat.repr (k + 1)).toList with _ | ⟨d, ds⟩
      · exact absurd hrepr (repr_digits (k + 1)).1
      · have hfmt : fmtChars (k + 1) [['?']] = d :: (ds ++ ('.' :: ' ' :: '?' :: [])) := by
          rw [fmtChars, hrepr]
          rfl
        have hmatch := matchAt_fmt_lastq (k + 1)
        rw [hrepr] at hmatch
        rw [hfmt, findall_cons, List.cons_append] at *
        rw [hmatch]
        show (([' ', '?'] :: findall []).map cleanChars) = [['?']]
        rw [findall_nil]
        simp [cleanChars_space_q]
    · rcases hrepr : (Nat.repr (k + 1)).toList with _ | ⟨d, ds⟩
      · exact absurd hrepr (repr_digits (k + 1)).1
      · cases rest with
        | nil =>
          have hfmt : fmtChars (k + 1) [r] =
              d :: (ds ++ ('.' :: ' ' :: c :: (mid ++ '?' :: []))) := by
            rw [fmtChars, hrepr, hr]
            simp
          have hmatch := matchAt_fmt (k + 1) c mid [] hc hmid
          rw [hrepr] at hmatch
          rw [hfmt, findall_cons, ← List.cons_append, hmatch]
          show (((c :: mid) ++ ['?']) :: findall []).map cleanChars = [r]
          rw [findall_nil, ← hr]
          simp [hfix]
        | cons r2 rest2 =>
          have hfmt : fmtChars (k + 1) (r :: r2 :: rest2) =
              d :: (ds ++ ('.' :: ' ' :: c ::
                (mid ++ '?' :: ('\n' :: '\n' :: fmtChars (k + 2) (r2 :: rest2))))) := by
            rw [fmtChars, hrepr, hr]
            simp
          have hmatch := matchAt_fmt (k + 1) c mid
            ('\n' :: '\n' :: fmtChars (k + 2) (r2 :: rest2)) hc hmid
          rw [hrepr] at hmatch
          rw [hfmt, findall_cons, ← List.cons_append, hmatch]
          show (((c :: mid) ++ ['?']) ::
              findall ('\n' :: '\n' :: fmtChars (k + 2) (r2 :: rest2))).map cleanChars =
            r :: r2 :: rest2
          rw [findall_cons, matchAt_cons_nondigit (by decide),
            findall_cons, matchAt_cons_nondigit (by decide)]
          have hih := ih (k + 1) hrest
          rw [List.map_cons, hih, ← hr, hfix]

lemma intercalate_go_shift (s : String) : ∀ (l : List String) (pre acc : String),
    String.intercalate.go (pre ++ acc) s l = pre ++ String.intercalate.go acc s l := by
  intro l
  induction l with
  | nil => intro pre acc; rfl
  | cons a as ih =>
    intro pre acc
    show String.intercalate.go (pre ++ acc ++ s ++ a) s as =
      pre ++ String.intercalate.go (acc ++ s ++ a) s as
    have h := ih pre (acc ++ s ++ a)
    rw [← h]
    congr 1
    simp [String.append_assoc]

lemma string_intercalate_single (s a : String) : String.intercalate s [a] = a :=
  rfl

lemma string_intercalate_cons_cons (s a b : String) (l : List String) :
    String.intercalate s (a :: b :: l) = a ++ s ++ String.intercalate s (b :: l) := by
  show String.intercalate.go (a ++ s ++ b) s l = a ++ s ++ String.intercalate.go b s l
  exact intercalate_go_shift s l (a ++ s) b

lemma toList_append (a b : String) : (a ++ b).toList = a.toList ++ b.toList :=
  rfl

lemma format_toList : ∀ (gs : List (List Char)) (k : Nat),
    (String.intercalate "\n\n" ((List.enumFrom k gs).map
      (fun p => toString ((p.1 : Int) + 1) ++ ". " ++ (cleanChars p.2).asString))).toList =
    fmtChars (k + 1) (gs.map cleanChars) := by
  intro gs
  have h1 : (". " : String).toList = '.' :: ' ' :: [] := rfl
  have h2 : ("\n\n" : String).toList = '\n' :: '\n' :: [] := rfl
  induction gs with
  | nil => intro k; rfl
  | cons g gs2 ih =>
    intro k
    rw [List.enumFrom_cons, List.map_cons]
    cases gs2 with
    | nil =>
      simp only [List.enumFrom_nil, List.map_nil]
      rw [string_intercalate_single, toList_append, toList_append, int_toString_nat,
        List.toList_asString, h1]
      simp only [List.map_cons, List.map_nil]
      rw [fmtChars]
      simp
    | cons g2 gs3 =>
      rw [List.enumFrom_cons, List.map_cons, string_intercalate_cons_cons]
      have hih := ih (k + 1)
      rw [List.enumFrom_cons, List.map_cons] at hih
      rw [toList_append, toList_append, toList_append, toList_append, int_toString_nat,
        List.toList_asString, h1, h2, hih]
      simp only [List.map_cons]
      rw [fmtChars]
      simp [List.append_assoc]

lemma GoodSeq_mem : ∀ (rs : List (List Char)), GoodSeq rs → ∀ r ∈ rs, GoodShape r := by
  intro rs
  induction rs with
  | nil => intro _ r hr; simp at hr
  | cons x rest ih =>
    intro h r hr
    obtain ⟨hx, _, hrest⟩ := h
    rcases List.mem_cons.1 hr with h1 | h1
    · subst h1; exact hx
    · exact ih hrest r h1

lemma enum_map_record : ∀ (xs ys : List (List Char)) (n : Nat),
    xs.map cleanChars = ys.map cleanChars →
    (List.enumFrom n xs).map (fun p : Nat × List Char =>
      (⟨(p.1 : Int) + 1, (cleanChars p.2).asString, none, none, none, none, some 3⟩ :
        ResponseItem)) =
    (List.enumFrom n ys).map (fun p : Nat × List Char =>
      (⟨(p.1 : Int) + 1, (cleanChars p.2).asString, none, none, none, none, some 3⟩ :
        ResponseItem)) := by
  intro xs
  induction xs with
  | nil =>
    intro ys n h
    have hy : ys = [] := by
      cases ys with
      | nil => rfl
      | cons y ys2 => simp at h
    subst hy
    rfl
  | cons x xs2 ih =>
    intro ys n h
    cases ys with
    | nil => simp at h
    | cons y ys2 =>
      simp only [List.map_cons, List.cons.injEq] at h
      obtain ⟨hxy, hrest⟩ := h
      rw [List.enumFrom_cons, List.enumFrom_cons, List.map_cons, List.map_cons, hxy,
        ih ys2 (n + 1) hrest]

lemma extract_eq_of_clean (s1 s2 : String)
    (h : (findall s1.toList).map cleanChars = (findall s2.toList).map cleanChars) :
    extract_questions s1 = extract_questions s2 := by
  rw [extract_questions, extract_questions]
  exact enum_map_record _ _ 0 h

/-- C10 counterexample: the requirement extracted from "1. ??" is "??", which
contains two question marks, so "every extracted requirement contains exactly
one question mark" is false. -/
theorem extract_question_mark_count :
    ¬ (∀ q ∈ extract_questions "1. ??", List.count '?' q.requirement.toList = 1) := by
  decide

/-- C10 amended: extraction composed with formatting is a fixed point for every
input text; what supports it is the weaker invariant that every extracted
requirement ends in a question mark and has none strictly between its first
and last characters (the first character itself may be a question mark). -/
theorem extract_format_extract_roundtrip (t : String) :
    extract_questions (format_questions (extract_questions t)) = extract_questions t ∧
    ∀ q ∈ extract_questions t, q.requirement.toList.getLast? = some '?' ∧
      '?' ∉ q.requirement.toList.dropLast.drop 1 := by
  constructor
  · have hstep : (format_questions (extract_questions t)).toList =
        fmtChars 1 ((findall t.toList).map cleanChars) := by
      rw [format_questions, extract_questions, List.map_map]
      have hcomp : ((fun q : ResponseItem => toString q.id ++ ". " ++ q.requirement) ∘
          (fun p : Nat × List Char => (⟨(p.1 : Int) + 1, (cleanChars p.2).asString,
            none, none, none, none, some 3⟩ : ResponseItem))) =
          (fun p : Nat × List Char =>
            toString ((p.1 : Int) + 1) ++ ". " ++ (cleanChars p.2).asString) := rfl
      rw [hcomp]
      exact format_toList (findall t.toList) 0
    have hgood : GoodSeq ((findall t.toList).map cleanChars) :=
      findallAux_goodSeq t.toList.length t.toList
    have hB := findall_fmt ((findall t.toList).map cleanChars) 0 hgood
    refine extract_eq_of_clean _ t ?_
    rw [hstep]
    exact hB
  · intro q hq
    obtain ⟨g, i, hg, hrec⟩ := mem_extract_decomp t q hq
    have hgood := findallAux_goodSeq t.toList.length t.toList
    have hmem : cleanChars g ∈ (findall t.toList).map cleanChars :=
      List.mem_map_of_mem _ hg
    have hshape := GoodSeq_mem _ hgood _ hmem
    have htl : q.requirement.toList = cleanChars g := by
      rw [hrec]
      exact List.toList_asString _
    rcases hshape.2 with hq1 | ⟨c, mid, hs, hmid, _⟩
    · rw [htl, hq1]
      exact ⟨rfl, by simp⟩
    · rw [htl, hs]
      refine ⟨List.getLast?_concat _, ?_⟩
      rw [List.dropLast_concat]
      simpa using hmid

theorem extract_format_extract_roundtrip_witness :
    extract_questions (format_questions (extract_questions "1. Is X done?")) =
      extract_questions "1. Is X done?" ∧
    ((⟨1, "Is X done?", none, none, none, none, some 3⟩ :
        ResponseItem).requirement.toList.getLast? = some '?' ∧
      '?' ∉ (⟨1, "Is X done?", none, none, none, none, some 3⟩ :
        ResponseItem).requirement.toList.dropLast.drop 1) :=
  ⟨(extract_format_extract_roundtrip "1. Is X done?").1,
    (extract_format_extract_roundtrip "1. Is X done?").2
      ⟨1, "Is X done?", none, none, none, none, some 3⟩ (by decide)⟩
